import Mathlib

/-!
Verification of the exam-scheduling core of `src/exams.py`.

The Python module defines immutable record types (`Exam`, `Hall`,
`ScheduleSlot`), a constraint evaluator `ExamSchedulingConstraint.satisfied`
over assignments (dicts) from exams to slots, a `powerset` helper, and a
slot-generation loop in the `__main__` block.  Everything below is a shallow
embedding of that code:

* Python `str` subjects are Lean `String`s; positional indexing `s[5]`
  becomes `s.data[5]?`, with a failed lookup (Python `IndexError`)
  surfacing as `none` in the `Option Bool` result of `satisfied`.
* Python `dict` assignments become association lists
  `List (Exam × ScheduleSlot)` whose order is the dict's iteration order.
* Python `set`s of halls become `Finset Hall`; the `defaultdict(set)` of
  day-bucketed `(department, year)` pairs becomes a single
  `Finset (Int × String × Char)` of `(day, department, year)` triples.
* `datetime` values are split into an ordinal day (`Int`) and a
  time-of-day record, exactly the two projections `.date()`/`.time()`
  the evaluator uses; `date(2020, 1, 1)` is its proleptic ordinal 737425.
-/

set_option autoImplicit false

namespace Exams

/-- Time of day, the `datetime.time` component used by the scheduler. -/
structure TimeOfDay where
  hour : Nat
  minute : Nat
deriving DecidableEq

/-- A `datetime`: calendar day (proleptic Gregorian ordinal) plus time of day. -/
structure DateTime where
  day : Int
  tod : TimeOfDay
deriving DecidableEq

/-- Python `TERM_START_DATE = date(2020, 1, 1)`, as its proleptic ordinal. -/
def TERM_START_DATE : Int := 737425

/-- Python `VALID_START_TIMES = (time(8,00), time(11,30), time(15,00), time(18,30))`. -/
def VALID_START_TIMES : List TimeOfDay := [⟨8, 0⟩, ⟨11, 30⟩, ⟨15, 0⟩, ⟨18, 30⟩]

/-- Python dataclass `Hall`. -/
structure Hall where
  hall : String
  capacity : Int
  has_computers : Bool
  n_proctors : Int
  belongs_to_etf : Bool
deriving DecidableEq

/-- Python dataclass `Exam`; `departments` is the tuple set up in `__post_init__`. -/
structure Exam where
  subject : String
  n_applied : Int
  needs_computers : Bool
  departments : List String
deriving DecidableEq

/-- Python dataclass `ScheduleSlot`; `halls` is a Python `set` of halls. -/
structure ScheduleSlot where
  start : DateTime
  halls : Finset Hall
deriving DecidableEq

/-- An assignment, a Python `Dict[Exam, ScheduleSlot]` in iteration order. -/
abbrev Assignment := List (Exam × ScheduleSlot)

/-- A `(day, department, year-character)` triple; the evaluator's
`dept_year_constraints` dictionary of sets flattens to a set of these. -/
abbrev DeptYearKey := Int × String × Char

/-- The `concurrent_halls` set built by rule 3 of `satisfied`: the union of
the halls of every other entry of the assignment that shares the slot's
exact start. -/
def concurrentHalls (assignment : Assignment) (exam : Exam)
    (slot : ScheduleSlot) : Finset Hall :=
  assignment.foldl
    (fun acc p =>
      if p.2.start = slot.start ∧ p.1 ≠ exam then acc ∪ p.2.halls else acc)
    ∅

/-- The rule-5 inner loop of `satisfied`: for each department of the exam,
look up `subject[5]` (an out-of-range index is Python's `IndexError`,
returned here as `none`), then test-and-insert the `(day, dept, year)`
key into the accumulated set; a repeated key yields `false`. -/
def checkDepts (subject : String) (day : Int) :
    List String → Finset DeptYearKey → Option (Bool × Finset DeptYearKey)
  | [], acc => some (true, acc)
  | dept :: rest, acc =>
    match subject.data[5]? with
    | none => none
    | some y =>
      if (day, dept, y) ∈ acc then some (false, acc)
      else checkDepts subject day rest (insert (day, dept, y) acc)

/-- The body of `ExamSchedulingConstraint.satisfied`: iterate the entries of
the assignment in order, threading the day-bucketed `(dept, year)` set, and
check the five rules for each entry exactly as the Python code does.  The
first parameter is the whole assignment (rule 3 scans all of it); the second
is the suffix still to be processed. -/
def satisfiedAux (assignment : Assignment) :
    Assignment → Finset DeptYearKey → Option Bool
  | [], _ => some true
  | (exam, slot) :: rest, acc =>
    if exam.n_applied > slot.halls.sum (fun h => h.capacity) then some false
    else if slot.start.tod ∉ VALID_START_TIMES then some false
    else if (slot.halls ∩ concurrentHalls assignment exam slot).Nonempty then
      some false
    else if exam.needs_computers = true ∧
        ∃ h ∈ slot.halls, h.has_computers = false then some false
    else
      match checkDepts exam.subject slot.start.day exam.departments acc with
      | none => none
      | some (false, _) => some false
      | some (true, acc1) => satisfiedAux assignment rest acc1

/-- `ExamSchedulingConstraint.satisfied`: `some b` models a normal boolean
return, `none` models an uncaught `IndexError` from `subject[5]`. -/
def satisfied (assignment : Assignment) : Option Bool :=
  satisfiedAux assignment assignment ∅

/-- Python `combinations(s, r)` from `itertools`, restricted to lists. -/
def combinations {α : Type} : List α → Nat → List (List α)
  | _, 0 => [[]]
  | [], _ + 1 => []
  | x :: xs, r + 1 => ((combinations xs r).map (x :: ·)) ++ combinations xs (r + 1)

/-- Python `powerset`: `chain.from_iterable(combinations(s, r) for r in
range(1, len(s)+1))`, i.e. every non-empty subsequence. -/
def powerset {α : Type} (l : List α) : List (List α) :=
  (List.range l.length).flatMap fun r => combinations l (r + 1)

/-- The slot-generation loop of the `__main__` block: for each day of the
term, each valid start time, and each element of the halls powerset, one
`ScheduleSlot` (whose halls are a Python `set`, here a `Finset`). -/
def genScheduleSlots (duration_days : Nat) (halls : List Hall) :
    List ScheduleSlot :=
  (List.range duration_days).flatMap fun d =>
    VALID_START_TIMES.flatMap fun t =>
      (powerset halls).map fun hs =>
        { start := ⟨TERM_START_DATE + (d : Int), t⟩, halls := hs.toFinset }

/-! ### Specification-level predicates

`satisfied` is characterised below (`satisfied_eq_true_iff`) by a symmetric,
order-free predicate `Consistent`, built from one conjunct per rule of the
Python code; every claim about accepted assignments goes through it. -/

/-- Rule 5 can dereference `subject[5]`; this predicate says that the
dereference cannot fail: either the exam has no departments (so the index is
never taken) or the subject has a character at position 5. -/
def SubjOk (e : Exam) : Prop :=
  e.departments = [] ∨ (e.subject.data[5]?).isSome

instance decidableSubjOk (e : Exam) : Decidable (SubjOk e) := by
  unfold SubjOk; infer_instance

/-- The per-entry part of the five rules, phrased as the negations of the
exact failure conditions tested by `satisfied`, plus `SubjOk`. -/
def Rules (A : Assignment) (p : Exam × ScheduleSlot) : Prop :=
  ¬(p.1.n_applied > p.2.halls.sum (fun h => h.capacity)) ∧
  ¬(p.2.start.tod ∉ VALID_START_TIMES) ∧
  ¬(p.2.halls ∩ concurrentHalls A p.1 p.2).Nonempty ∧
  ¬(p.1.needs_computers = true ∧ ∃ h ∈ p.2.halls, h.has_computers = false) ∧
  SubjOk p.1

/-- The `(day, department, year)` keys one assignment entry contributes to
rule 5 (with an arbitrary year character when the subject is too short; in
that situation `SubjOk` fails and the keys are irrelevant). -/
def entryTokens (p : Exam × ScheduleSlot) : List DeptYearKey :=
  p.1.departments.map fun dept => (p.2.start.day, dept, p.1.subject.data.getD 5 'A')

/-- All rule-5 keys contributed by a list of entries, in iteration order. -/
def tokensOf (entries : Assignment) : List DeptYearKey :=
  entries.flatMap entryTokens

/-- The order-free characterisation of acceptance: every entry passes rules
1–4 and can derive its year, and no `(day, department, year)` key is
contributed twice. -/
def Consistent (A : Assignment) : Prop :=
  (∀ p ∈ A, Rules A p) ∧ (tokensOf A).Nodup

/-! ### Concrete sample data, used to instantiate the theorems below -/

/-- A computer-equipped hall with capacity 100. -/
def hallH1 : Hall := ⟨"H1", 100, true, 2, true⟩

/-- A hall without computers, capacity 80. -/
def hallH2 : Hall := ⟨"H2", 80, false, 1, true⟩

/-- An exam that needs computers; year character `subject[5] = '3'`. -/
def examCS : Exam := ⟨"CS1013", 50, true, ["SI"]⟩

/-- An ordinary exam; year character `'1'`. -/
def examMA : Exam := ⟨"MA1021", 40, false, ["SI"]⟩

/-- Another department-"SI" exam with the same year character `'1'`. -/
def examFI : Exam := ⟨"FI1061", 30, false, ["SI"]⟩

/-- An exam whose subject identifier is shorter than six characters. -/
def examShort : Exam := ⟨"AB", 10, false, ["SI"]⟩

/-- An exam whose enrollment exceeds every sample hall's capacity. -/
def examBig : Exam := ⟨"XX1114", 1000, false, ["SI"]⟩

/-- Day 0 of the term at 08:00 in hall `H1`. -/
def slotH1d0 : ScheduleSlot := ⟨⟨TERM_START_DATE, ⟨8, 0⟩⟩, {hallH1}⟩

/-- Day 0 of the term at 08:00 in hall `H2`. -/
def slotH2d0 : ScheduleSlot := ⟨⟨TERM_START_DATE, ⟨8, 0⟩⟩, {hallH2}⟩

/-- Day 0 of the term at 11:30 in hall `H1`. -/
def slotH1d0b : ScheduleSlot := ⟨⟨TERM_START_DATE, ⟨11, 30⟩⟩, {hallH1}⟩

/-- Day 1 of the term at 08:00 in hall `H2`. -/
def slotH2d1 : ScheduleSlot := ⟨⟨TERM_START_DATE + 1, ⟨8, 0⟩⟩, {hallH2}⟩

theorem tokensOf_nil : tokensOf [] = [] := rfl

theorem tokensOf_cons (p : Exam × ScheduleSlot) (l : Assignment) :
    tokensOf (p :: l) = entryTokens p ++ tokensOf l :=
  List.flatMap_cons p l entryTokens

/-- Membership in the fold that builds `concurrent_halls`, with an arbitrary
starting accumulator. -/
theorem mem_concurrentHalls_fold (slot : ScheduleSlot) (exam : Exam) (h : Hall) :
    ∀ (l : Assignment) (acc : Finset Hall),
      (h ∈ l.foldl
        (fun acc p =>
          if p.2.start = slot.start ∧ p.1 ≠ exam then acc ∪ p.2.halls else acc)
        acc) ↔
      h ∈ acc ∨ ∃ p ∈ l, p.2.start = slot.start ∧ p.1 ≠ exam ∧ h ∈ p.2.halls := by
  intro l
  induction l with
  | nil => intro acc; simp
  | cons q rest ih =>
      intro acc
      rw [List.foldl_cons]
      by_cases hq : q.2.start = slot.start ∧ q.1 ≠ exam
      · rw [if_pos hq, ih]
        simp only [Finset.mem_union, List.mem_cons]
        constructor
        · rintro ((ha | ha) | ⟨p, hp, hps⟩)
          · exact Or.inl ha
          · exact Or.inr ⟨q, Or.inl rfl, hq.1, hq.2, ha⟩
          · exact Or.inr ⟨p, Or.inr hp, hps⟩
        · rintro (ha | ⟨p, (rfl | hp), hps⟩)
          · exact Or.inl (Or.inl ha)
          · exact Or.inl (Or.inr hps.2.2)
          · exact Or.inr ⟨p, hp, hps⟩
      · rw [if_neg hq, ih]
        simp only [List.mem_cons]
        constructor
        · rintro (ha | ⟨p, hp, hps⟩)
          · exact Or.inl ha
          · exact Or.inr ⟨p, Or.inr hp, hps⟩
        · rintro (ha | ⟨p, (rfl | hp), hps⟩)
          · exact Or.inl ha
          · exact absurd ⟨hps.1, hps.2.1⟩ hq
          · exact Or.inr ⟨p, hp, hps⟩

/-- A hall is concurrent exactly when some other entry of the assignment has
the same start and contains it. -/
theorem mem_concurrentHalls {A : Assignment} {exam : Exam} {slot : ScheduleSlot}
    {h : Hall} :
    h ∈ concurrentHalls A exam slot ↔
      ∃ p ∈ A, p.2.start = slot.start ∧ p.1 ≠ exam ∧ h ∈ p.2.halls := by
  rw [concurrentHalls, mem_concurrentHalls_fold]
  simp

/-! ### Behaviour of the rule-5 inner loop -/

theorem checkDepts_nil (s : String) (day : Int) (acc : Finset DeptYearKey) :
    checkDepts s day [] acc = some (true, acc) := rfl

/-- A too-short subject makes the first department lookup fail. -/
theorem checkDepts_none {s : String} (hs : s.data[5]? = none) (day : Int)
    (dept : String) (rest : List String) (acc : Finset DeptYearKey) :
    checkDepts s day (dept :: rest) acc = none := by
  simp [checkDepts, hs]

/-- When the year character exists and the exam's own keys are fresh (no
internal repetition, none already accumulated), the loop succeeds and
returns the accumulator enlarged with those keys. -/
theorem checkDepts_eq_true {s : String} {day : Int} {y : Char}
    (hy : s.data[5]? = some y) :
    ∀ (depts : List String) (acc : Finset DeptYearKey),
      (depts.map fun d => ((day, d, y) : DeptYearKey)).Nodup →
      (∀ t ∈ depts.map fun d => ((day, d, y) : DeptYearKey), t ∉ acc) →
      checkDepts s day depts acc =
        some (true, acc ∪ (depts.map fun d => ((day, d, y) : DeptYearKey)).toFinset) := by
  intro depts
  induction depts with
  | nil => intro acc _ _; simp [checkDepts]
  | cons d rest ih =>
      intro acc hnd hdisj
      rw [List.map_cons, List.nodup_cons] at hnd
      rw [List.map_cons, List.forall_mem_cons] at hdisj
      rw [checkDepts]
      simp only [hy]
      rw [if_neg hdisj.1]
      rw [ih (insert (day, d, y) acc) hnd.2 ?_]
      · congr 1
        refine congrArg _ ?_
        ext a
        simp only [Finset.mem_union, Finset.mem_insert, List.mem_toFinset,
          List.map_cons, List.mem_cons]
        tauto
      · intro t ht hins
        rcases Finset.mem_insert.mp hins with rfl | hacc
        · exact hnd.1 ht
        · exact hdisj.2 t ht hacc

/-- When the year character exists but some key of the exam repeats or is
already accumulated, the loop reports a violation. -/
theorem checkDepts_eq_false {s : String} {day : Int} {y : Char}
    (hy : s.data[5]? = some y) :
    ∀ (depts : List String) (acc : Finset DeptYearKey),
      ¬((depts.map fun d => ((day, d, y) : DeptYearKey)).Nodup ∧
        ∀ t ∈ depts.map fun d => ((day, d, y) : DeptYearKey), t ∉ acc) →
      ∃ a, checkDepts s day depts acc = some (false, a) := by
  intro depts
  induction depts with
  | nil => intro acc hbad; exact absurd ⟨List.nodup_nil, by simp⟩ hbad
  | cons d rest ih =>
      intro acc hbad
      rw [checkDepts]
      simp only [hy]
      by_cases hmem : ((day, d, y) : DeptYearKey) ∈ acc
      · exact ⟨acc, by rw [if_pos hmem]⟩
      · rw [if_neg hmem]
        refine ih (insert (day, d, y) acc) ?_
        intro hgood
        refine hbad ⟨?_, ?_⟩
        · rw [List.map_cons, List.nodup_cons]
          refine ⟨fun hdy => ?_, hgood.1⟩
          exact hgood.2 _ hdy (Finset.mem_insert_self _ _)
        · rw [List.map_cons, List.forall_mem_cons]
          refine ⟨hmem, fun t ht hacc => ?_⟩
          exact hgood.2 t ht (Finset.mem_insert_of_mem hacc)

/-- A successful department loop never fails when `SubjOk` holds. -/
theorem checkDepts_isSome {s : String} {day : Int} :
    ∀ (depts : List String) (acc : Finset DeptYearKey),
      (depts = [] ∨ (s.data[5]?).isSome) →
      (checkDepts s day depts acc).isSome := by
  intro depts
  induction depts with
  | nil => intro acc _; rw [checkDepts_nil]; rfl
  | cons d rest ih =>
      intro acc h
      rcases h with h | h
      · exact absurd h (List.cons_ne_nil d rest)
      · obtain ⟨y, hy⟩ := Option.isSome_iff_exists.mp h
        rw [checkDepts]
        simp only [hy]
        by_cases hmem : ((day, d, y) : DeptYearKey) ∈ acc
        · rw [if_pos hmem]; rfl
        · rw [if_neg hmem]
          exact ih _ (Or.inr h)

/-! ### Characterisation of acceptance -/

theorem satisfiedAux_nil (A : Assignment) (acc : Finset DeptYearKey) :
    satisfiedAux A [] acc = some true := rfl

theorem satisfiedAux_cons (A : Assignment) (exam : Exam) (slot : ScheduleSlot)
    (rest : Assignment) (acc : Finset DeptYearKey) :
    satisfiedAux A ((exam, slot) :: rest) acc =
      if exam.n_applied > slot.halls.sum (fun h => h.capacity) then some false
      else if slot.start.tod ∉ VALID_START_TIMES then some false
      else if (slot.halls ∩ concurrentHalls A exam slot).Nonempty then some false
      else if exam.needs_computers = true ∧
          ∃ h ∈ slot.halls, h.has_computers = false then some false
      else
        match checkDepts exam.subject slot.start.day exam.departments acc with
        | none => none
        | some (false, _) => some false
        | some (true, acc1) => satisfiedAux A rest acc1 := rfl

/-- The evaluator's loop accepts exactly when every remaining entry passes
rules 1–4 and `SubjOk`, and the remaining rule-5 keys neither repeat nor
meet the accumulator. -/
theorem satisfiedAux_eq_true_iff (A : Assignment) :
    ∀ (entries : Assignment) (acc : Finset DeptYearKey),
      satisfiedAux A entries acc = some true ↔
        ((∀ p ∈ entries, Rules A p) ∧ (tokensOf entries).Nodup ∧
          ∀ t ∈ tokensOf entries, t ∉ acc) := by
  intro entries
  induction entries with
  | nil =>
      intro acc
      simp [satisfiedAux_nil, tokensOf_nil]
  | cons p rest ih =>
      intro acc
      obtain ⟨exam, slot⟩ := p
      rw [satisfiedAux_cons, tokensOf_cons]
      by_cases h1 : exam.n_applied > slot.halls.sum fun h => h.capacity
      · rw [if_pos h1]
        constructor
        · intro hco; exact absurd hco (by simp)
        · rintro ⟨hr, -, -⟩
          exact absurd h1 (hr (exam, slot) (List.mem_cons_self _ _)).1
      · rw [if_neg h1]
        by_cases h2 : slot.start.tod ∉ VALID_START_TIMES
        · rw [if_pos h2]
          constructor
          · intro hco; exact absurd hco (by simp)
          · rintro ⟨hr, -, -⟩
            exact absurd h2 (hr (exam, slot) (List.mem_cons_self _ _)).2.1
        · rw [if_neg h2]
          by_cases h3 : (slot.halls ∩ concurrentHalls A exam slot).Nonempty
          · rw [if_pos h3]
            constructor
            · intro hco; exact absurd hco (by simp)
            · rintro ⟨hr, -, -⟩
              exact absurd h3 (hr (exam, slot) (List.mem_cons_self _ _)).2.2.1
          · rw [if_neg h3]
            by_cases h4 : exam.needs_computers = true ∧
                ∃ h ∈ slot.halls, h.has_computers = false
            · rw [if_pos h4]
              constructor
              · intro hco; exact absurd hco (by simp)
              · rintro ⟨hr, -, -⟩
                exact absurd h4 (hr (exam, slot) (List.mem_cons_self _ _)).2.2.2.1
            · rw [if_neg h4]
              rcases hsub : exam.subject.data[5]? with _ | y
              · rcases hdep : exam.departments with _ | ⟨d, ds⟩
                · rw [checkDepts_nil]
                  show satisfiedAux A rest acc = some true ↔ _
                  rw [ih]
                  have het : entryTokens (exam, slot) = [] := by
                    simp [entryTokens, hdep]
                  rw [het, List.nil_append, List.forall_mem_cons]
                  have hRules : Rules A (exam, slot) := ⟨h1, h2, h3, h4, Or.inl hdep⟩
                  tauto
                · rw [checkDepts_none hsub]
                  show (none : Option Bool) = some true ↔ _
                  constructor
                  · intro hco; exact absurd hco (by simp)
                  · rintro ⟨hr, -, -⟩
                    refine Or.elim
                      ((hr (exam, slot) (List.mem_cons_self _ _)).2.2.2.2)
                      (fun hd => ?_) (fun hy => ?_)
                    · rw [hdep] at hd; exact absurd hd (List.cons_ne_nil _ _)
                    · rw [hsub] at hy; exact absurd hy (by simp)
              · have hgetD : exam.subject.data.getD 5 'A' = y := by
                  rw [List.getD_eq_getElem?_getD, hsub]; rfl
                have htl : entryTokens (exam, slot) =
                    exam.departments.map
                      fun d => ((slot.start.day, d, y) : DeptYearKey) := by
                  simp only [entryTokens]
                  rw [hgetD]
                rw [htl]
                by_cases hgood :
                    (exam.departments.map
                      fun d => ((slot.start.day, d, y) : DeptYearKey)).Nodup ∧
                    ∀ t ∈ exam.departments.map
                      fun d => ((slot.start.day, d, y) : DeptYearKey), t ∉ acc
                · rw [checkDepts_eq_true hsub exam.departments acc hgood.1 hgood.2]
                  show satisfiedAux A rest (acc ∪ _) = some true ↔ _
                  rw [ih]
                  have hRules : Rules A (exam, slot) :=
                    ⟨h1, h2, h3, h4, Or.inr (by rw [hsub]; rfl)⟩
                  rw [List.forall_mem_cons, List.nodup_append]
                  constructor
                  · rintro ⟨ha, hb, hc⟩
                    refine ⟨⟨hRules, ha⟩, ⟨hgood.1, hb, ?_⟩, ?_⟩
                    · intro t htl2 htr
                      exact (hc t htr)
                        (Finset.mem_union_right _ (List.mem_toFinset.mpr htl2))
                    · intro t ht
                      rcases List.mem_append.mp ht with ht | ht
                      · exact hgood.2 t ht
                      · intro hacc
                        exact (hc t ht) (Finset.mem_union_left _ hacc)
                  · rintro ⟨⟨-, ha⟩, ⟨-, hb, hdisj⟩, hc⟩
                    refine ⟨ha, hb, ?_⟩
                    intro t ht hmem
                    rcases Finset.mem_union.mp hmem with hmem | hmem
                    · exact hc t (List.mem_append_right _ ht) hmem
                    · exact hdisj (List.mem_toFinset.mp hmem) ht
                · obtain ⟨a, hcd⟩ :=
                    checkDepts_eq_false hsub exam.departments acc hgood
                  rw [hcd]
                  show (some false : Option Bool) = some true ↔ _
                  constructor
                  · intro hco; exact absurd hco (by simp)
                  · rintro ⟨-, hnd, hacc⟩
                    rw [List.nodup_append] at hnd
                    exact absurd
                      ⟨hnd.1, fun t ht => hacc t (List.mem_append_left _ ht)⟩ hgood

/-- `satisfied` accepts exactly the `Consistent` assignments. -/
theorem satisfied_eq_true_iff (A : Assignment) :
    satisfied A = some true ↔ Consistent A := by
  rw [satisfied, satisfiedAux_eq_true_iff, Consistent]
  simp

/-! ### Invariance of `Consistent` under reordering and restriction -/

/-- `concurrent_halls` only depends on which entries the assignment has. -/
theorem concurrentHalls_congr {A B : Assignment} (h : ∀ q, q ∈ A ↔ q ∈ B)
    (exam : Exam) (slot : ScheduleSlot) :
    concurrentHalls A exam slot = concurrentHalls B exam slot := by
  ext x
  rw [mem_concurrentHalls, mem_concurrentHalls]
  constructor
  · rintro ⟨p, hp, hps⟩; exact ⟨p, (h p).mp hp, hps⟩
  · rintro ⟨p, hp, hps⟩; exact ⟨p, (h p).mpr hp, hps⟩

/-- The per-entry rules transfer to any assignment with the same entries. -/
theorem Rules_congr {A B : Assignment} (h : ∀ q, q ∈ A ↔ q ∈ B)
    (p : Exam × ScheduleSlot) (hr : Rules A p) : Rules B p := by
  obtain ⟨r1, r2, r3, r4, r5⟩ := hr
  refine ⟨r1, r2, ?_, r4, r5⟩
  rw [concurrentHalls_congr (fun q => (h q).symm) p.1 p.2]
  exact r3

/-- The per-entry rules survive restriction to a sub-assignment: removing
entries only shrinks the concurrent-halls set of rule 3. -/
theorem Rules_mono {A B : Assignment} (hBA : B ⊆ A) (p : Exam × ScheduleSlot)
    (hr : Rules A p) : Rules B p := by
  obtain ⟨r1, r2, r3, r4, r5⟩ := hr
  refine ⟨r1, r2, ?_, r4, r5⟩
  intro hne
  obtain ⟨x, hx⟩ := hne
  have hx1 := (Finset.mem_inter.mp hx).1
  obtain ⟨q, hq, hqs⟩ := mem_concurrentHalls.mp (Finset.mem_inter.mp hx).2
  exact r3 ⟨x, Finset.mem_inter.mpr ⟨hx1, mem_concurrentHalls.mpr ⟨q, hBA hq, hqs⟩⟩⟩

theorem tokensOf_perm {A B : Assignment} (h : A.Perm B) :
    (tokensOf A).Perm (tokensOf B) :=
  List.Perm.flatMap_right entryTokens h

theorem tokensOf_sublist {A B : Assignment} (h : A.Sublist B) :
    (tokensOf A).Sublist (tokensOf B) := by
  induction h with
  | slnil => exact List.Sublist.refl _
  | cons p _ ih =>
      rw [tokensOf_cons]
      exact ih.trans (List.sublist_append_right _ _)
  | cons₂ p _ ih =>
      rw [tokensOf_cons, tokensOf_cons]
      exact ih.append_left _

theorem tokensOf_subperm {A B : Assignment} (h : A.Subperm B) :
    (tokensOf A).Subperm (tokensOf B) := by
  obtain ⟨l, hl, hsl⟩ := List.subperm_iff.mp h
  exact List.subperm_iff.mpr ⟨tokensOf l, tokensOf_perm hl, tokensOf_sublist hsl⟩

theorem Consistent_perm {A B : Assignment} (h : A.Perm B)
    (hc : Consistent A) : Consistent B := by
  obtain ⟨hr, hnd⟩ := hc
  refine ⟨fun p hp => Rules_congr (fun q => h.mem_iff) p (hr p (h.mem_iff.mpr hp)),
    ((tokensOf_perm h).nodup_iff).mp hnd⟩

theorem Consistent_subperm {A B : Assignment} (h : B.Subperm A)
    (hc : Consistent A) : Consistent B := by
  obtain ⟨hr, hnd⟩ := hc
  refine ⟨fun p hp => Rules_mono h.subset p (hr p (h.subset hp)), ?_⟩
  obtain ⟨l, hl, hsl⟩ := List.subperm_iff.mp (tokensOf_subperm h)
  exact List.Nodup.sublist hsl (hl.nodup_iff.mpr hnd)

/-! ### Totality away from the short-subject error -/

theorem satisfiedAux_isSome (A : Assignment) :
    ∀ (entries : Assignment) (acc : Finset DeptYearKey),
      (∀ p ∈ entries, SubjOk p.1) →
      (satisfiedAux A entries acc).isSome = true := by
  intro entries
  induction entries with
  | nil => intro acc _; rw [satisfiedAux_nil]; rfl
  | cons p rest ih =>
      intro acc hok
      obtain ⟨exam, slot⟩ := p
      rw [satisfiedAux_cons]
      split_ifs <;> try rfl
      have hs : (checkDepts exam.subject slot.start.day
          exam.departments acc).isSome = true :=
        checkDepts_isSome exam.departments acc
          (hok (exam, slot) (List.mem_cons_self _ _))
      rcases hcd : checkDepts exam.subject slot.start.day exam.departments acc
        with _ | ⟨b, acc1⟩
      · rw [hcd] at hs; exact absurd hs (by simp)
      · rcases b with _ | _
        · rfl
        · exact ih acc1 (fun q hq => hok q (List.mem_cons_of_mem _ hq))

/-- `satisfied` returns a boolean on every assignment whose exams can all
derive their year character (rule 5's `subject[5]`). -/
theorem satisfied_isSome {A : Assignment} (hok : ∀ p ∈ A, SubjOk p.1) :
    (satisfied A).isSome = true :=
  satisfiedAux_isSome A A ∅ hok

/-- On error-free assignments the evaluator's result is invariant under
permutation of the entries. -/
theorem satisfied_perm_eq {A B : Assignment} (hok : ∀ p ∈ A, SubjOk p.1)
    (h : A.Perm B) : satisfied A = satisfied B := by
  have hokB : ∀ p ∈ B, SubjOk p.1 := fun p hp => hok p (h.mem_iff.mpr hp)
  obtain ⟨a, ha⟩ := Option.isSome_iff_exists.mp (satisfied_isSome hok)
  obtain ⟨b, hb⟩ := Option.isSome_iff_exists.mp (satisfied_isSome hokB)
  rw [ha, hb]
  rcases a with _ | _ <;> rcases b with _ | _
  · rfl
  · have hCB := (satisfied_eq_true_iff B).mp hb
    have hCA := Consistent_perm h.symm hCB
    have := (satisfied_eq_true_iff A).mpr hCA
    rw [ha] at this
    exact absurd this (by simp)
  · have hCA := (satisfied_eq_true_iff A).mp ha
    have hCB := Consistent_perm h hCA
    have := (satisfied_eq_true_iff B).mpr hCB
    rw [hb] at this
    exact absurd this (by simp)
  · rfl

/-! ### Counting and invariants of the slot generator -/

theorem length_combinations {α : Type} :
    ∀ (l : List α) (r : Nat), (combinations l r).length = l.length.choose r := by
  intro l
  induction l with
  | nil =>
      intro r
      cases r with
      | zero => rfl
      | succ n => rfl
  | cons x xs ih =>
      intro r
      cases r with
      | zero => rfl
      | succ n =>
          simp only [combinations]
          rw [List.length_append, List.length_map, ih n, ih (n + 1),
            List.length_cons, Nat.choose_succ_succ]

theorem length_of_mem_combinations {α : Type} :
    ∀ (l : List α) (r : Nat) (x : List α), x ∈ combinations l r → x.length = r := by
  intro l
  induction l with
  | nil =>
      intro r x hx
      cases r with
      | zero =>
          simp only [combinations, List.mem_singleton] at hx
          rw [hx]; rfl
      | succ n => simp only [combinations, List.not_mem_nil] at hx
  | cons a xs ih =>
      intro r x hx
      cases r with
      | zero =>
          simp only [combinations, List.mem_singleton] at hx
          rw [hx]; rfl
      | succ n =>
          simp only [combinations, List.mem_append] at hx
          rcases hx with hx | hx
          · obtain ⟨y, hy, rfl⟩ := List.mem_map.mp hx
            rw [List.length_cons, ih n y hy]
          · exact ih (n + 1) x hx

theorem sum_map_range (f : Nat → Nat) :
    ∀ n : Nat, ((List.range n).map f).sum = ∑ i ∈ Finset.range n, f i := by
  intro n
  induction n with
  | zero => rfl
  | succ n ih =>
      rw [List.range_succ, List.map_append, List.sum_append,
        Finset.sum_range_succ, ih]
      simp

/-- Python `powerset` has `2 ^ n - 1` elements on an `n`-element inventory. -/
theorem length_powerset {α : Type} (l : List α) :
    (powerset l).length = 2 ^ l.length - 1 := by
  rw [powerset, List.length_flatMap]
  have hmap : (List.range l.length).map
        (List.length ∘ fun r => combinations l (r + 1)) =
      (List.range l.length).map (fun r => l.length.choose (r + 1)) :=
    List.map_congr_left (fun r _ => length_combinations l (r + 1))
  rw [hmap, sum_map_range]
  have h0 := Nat.sum_range_choose l.length
  rw [Finset.sum_range_succ', Nat.choose_zero_right] at h0
  omega

theorem ne_nil_of_mem_powerset {α : Type} {l x : List α}
    (hx : x ∈ powerset l) : x ≠ [] := by
  rw [powerset, List.mem_flatMap] at hx
  obtain ⟨r, -, hx⟩ := hx
  have hlen := length_of_mem_combinations l (r + 1) x hx
  intro hnil
  rw [hnil] at hlen
  exact absurd hlen.symm (Nat.succ_ne_zero r)

/-- Shape of every generated slot: a day offset below the duration, one of
the four start times, and the halls of one powerset element. -/
theorem mem_genScheduleSlots {duration_days : Nat} {halls : List Hall}
    {slot : ScheduleSlot} (hs : slot ∈ genScheduleSlots duration_days halls) :
    ∃ d : Nat, d < duration_days ∧ ∃ t ∈ VALID_START_TIMES, ∃ hl ∈ powerset halls,
      slot = { start := ⟨TERM_START_DATE + (d : Int), t⟩, halls := hl.toFinset } := by
  rw [genScheduleSlots] at hs
  simp only [List.mem_flatMap, List.mem_map, List.mem_range] at hs
  obtain ⟨d, hd, t, ht, hl, hhl, heq⟩ := hs
  exact ⟨d, hd, t, ht, hl, hhl, heq.symm⟩

/-- Count of generated slots: days × 4 × (2^n − 1). -/
theorem length_genScheduleSlots (duration_days : Nat) (halls : List Hall) :
    (genScheduleSlots duration_days halls).length =
      duration_days * 4 * (2 ^ halls.length - 1) := by
  rw [genScheduleSlots, List.length_flatMap]
  have hinner : ∀ d : Nat,
      (VALID_START_TIMES.flatMap fun t =>
        (powerset halls).map fun hs =>
          ({ start := ⟨TERM_START_DATE + (d : Int), t⟩,
             halls := hs.toFinset } : ScheduleSlot)).length =
        4 * (2 ^ halls.length - 1) := by
    intro d
    rw [List.length_flatMap]
    simp only [VALID_START_TIMES, List.map_cons, List.map_nil,
      Function.comp_apply, List.length_map, length_powerset, List.sum_cons,
      List.sum_nil]
    ring
  have hmap : (List.range duration_days).map
        (List.length ∘ fun (d : Nat) =>
          VALID_START_TIMES.flatMap fun t =>
            (powerset halls).map fun hs =>
              ({ start := ⟨TERM_START_DATE + (d : Int), t⟩,
                 halls := hs.toFinset } : ScheduleSlot)) =
      (List.range duration_days).map
        (fun _ => 4 * (2 ^ halls.length - 1)) :=
    List.map_congr_left (fun d _ => hinner d)
  rw [hmap, List.map_const', List.sum_replicate, List.length_range,
    smul_eq_mul, Nat.mul_assoc]

/-! ### Claim theorems -/

/-- C10: the empty assignment is always consistent: `satisfied` applied to
an assignment with no exam-to-slot bindings returns `true`, so the solver's
initial search state passes the Evaluator. -/
theorem satisfied_empty : satisfied ([] : Assignment) = some true := rfl

/-- C6: in every assignment accepted by the Evaluator, each exam's expected
enrollment is at most the summed capacity of the halls of its slot. -/
theorem capacity_of_satisfied (A : Assignment) (e : Exam) (s : ScheduleSlot)
    (hsat : satisfied A = some true) (hmem : (e, s) ∈ A) :
    e.n_applied ≤ s.halls.sum (fun h => h.capacity) := by
  have hr := ((satisfied_eq_true_iff A).mp hsat).1 (e, s) hmem
  exact not_lt.mp hr.1

/-- C6 witness: a concrete accepted assignment with enrollment 40 in an
80-seat hall. -/
theorem capacity_of_satisfied_witness :
    satisfied [(examMA, slotH2d0)] = some true ∧
      examMA.n_applied ≤ slotH2d0.halls.sum (fun h => h.capacity) :=
  ⟨by decide,
    capacity_of_satisfied [(examMA, slotH2d0)] examMA slotH2d0 (by decide)
      (by decide)⟩

/-- C7: in every accepted assignment, two distinct exams whose slots share
the exact same start occupy disjoint hall sets; the rule is symmetric in the
pair. -/
theorem no_double_booking (A : Assignment) (e1 e2 : Exam)
    (s1 s2 : ScheduleSlot) (hsat : satisfied A = some true)
    (h1 : (e1, s1) ∈ A) (h2 : (e2, s2) ∈ A) (hne : e1 ≠ e2)
    (hstart : s1.start = s2.start) : s1.halls ∩ s2.halls = ∅ := by
  have hr := ((satisfied_eq_true_iff A).mp hsat).1 (e1, s1) h1
  have r3 := hr.2.2.1
  rw [Finset.not_nonempty_iff_eq_empty] at r3
  have hsubcc : s2.halls ⊆ concurrentHalls A e1 s1 := fun x hx =>
    mem_concurrentHalls.mpr ⟨(e2, s2), h2, hstart.symm, fun he => hne he.symm, hx⟩
  have hsub : s1.halls ∩ s2.halls ⊆ s1.halls ∩ concurrentHalls A e1 s1 :=
    Finset.inter_subset_inter (Finset.Subset.refl _) hsubcc
  rw [r3] at hsub
  exact Finset.subset_empty.mp hsub

/-- C7 witness: two exams at the same start in different halls, accepted,
with disjoint hall sets. -/
theorem no_double_booking_witness :
    satisfied [(examCS, slotH1d0), (examMA, slotH2d0)] = some true ∧
      slotH1d0.halls ∩ slotH2d0.halls = ∅ :=
  ⟨by decide,
    no_double_booking [(examCS, slotH1d0), (examMA, slotH2d0)] examCS examMA
      slotH1d0 slotH2d0 (by decide) (by decide) (by decide) (by decide)
      (by decide)⟩

/-- C8: in every accepted assignment, an exam that requires computers sits
only in halls that have computers; a mixed slot is only acceptable for
exams that do not require them. -/
theorem computers_of_satisfied (A : Assignment) (e : Exam) (s : ScheduleSlot)
    (h : Hall) (hsat : satisfied A = some true) (hmem : (e, s) ∈ A)
    (hreq : e.needs_computers = true) (hh : h ∈ s.halls) :
    h.has_computers = true := by
  have hr := ((satisfied_eq_true_iff A).mp hsat).1 (e, s) hmem
  have r4 := hr.2.2.2.1
  cases hb : h.has_computers
  · exact absurd ⟨hreq, ⟨h, hh, hb⟩⟩ r4
  · rfl

/-- C8 witness: a computer exam accepted in the computer hall. -/
theorem computers_of_satisfied_witness :
    satisfied [(examCS, slotH1d0)] = some true ∧ hallH1.has_computers = true :=
  ⟨by decide,
    computers_of_satisfied [(examCS, slotH1d0)] examCS slotH1d0 hallH1
      (by decide) (by decide) (by decide) (by decide)⟩

/-- An entry whose exam lists department `d` and has year character `y`
contributes the key `(day, d, y)`. -/
theorem mem_entryTokens_of {e : Exam} {s : ScheduleSlot} {d : String} {y : Char}
    (hd : d ∈ e.departments) (hy : e.subject.data[5]? = some y) :
    (s.start.day, d, y) ∈ entryTokens (e, s) := by
  have hgetD : e.subject.data.getD 5 'A' = y := by
    rw [List.getD_eq_getElem?_getD, hy]; rfl
  simp only [entryTokens]
  exact List.mem_map.mpr ⟨d, hd, by rw [hgetD]⟩

/-- C2: an assignment that schedules, on one calendar day, two distinct
exams sharing a department and the same derived year character
(`subject[5]`) is never accepted by the Evaluator — equivalently, every
accepted assignment is free of such pairs, whatever time slots they use. -/
theorem dept_year_conflict_rejected (A : Assignment) (e1 e2 : Exam)
    (s1 s2 : ScheduleSlot) (d : String) (y : Char)
    (h1 : (e1, s1) ∈ A) (h2 : (e2, s2) ∈ A) (hne : e1 ≠ e2)
    (hd1 : d ∈ e1.departments) (hd2 : d ∈ e2.departments)
    (hy1 : e1.subject.data[5]? = some y) (hy2 : e2.subject.data[5]? = some y)
    (hday : s1.start.day = s2.start.day) : satisfied A ≠ some true := by
  intro hsat
  have hnd := ((satisfied_eq_true_iff A).mp hsat).2
  rw [tokensOf, List.nodup_flatMap] at hnd
  have hpair := hnd.2.forall
    (fun p q hpq => List.Disjoint.symm hpq) h1 h2
    (fun hp => hne (congrArg Prod.fst hp))
  have ht1 : (s1.start.day, d, y) ∈ entryTokens (e1, s1) :=
    mem_entryTokens_of hd1 hy1
  have ht2 : (s1.start.day, d, y) ∈ entryTokens (e2, s2) := by
    rw [hday]
    exact mem_entryTokens_of hd2 hy2
  exact hpair ht1 ht2

/-- C2 witness: two distinct department-"SI" exams with year `'1'` on day 0
(at different times) are rejected. -/
theorem dept_year_conflict_rejected_witness :
    (examMA, slotH2d0) ∈ [(examMA, slotH2d0), (examFI, slotH1d0b)] ∧
      examMA ≠ examFI ∧ slotH2d0.start.day = slotH1d0b.start.day ∧
      satisfied [(examMA, slotH2d0), (examFI, slotH1d0b)] ≠ some true :=
  ⟨by decide, by decide, by decide,
    dept_year_conflict_rejected [(examMA, slotH2d0), (examFI, slotH1d0b)]
      examMA examFI slotH2d0 slotH1d0b "SI" (Char.ofNat 49) (by decide)
      (by decide) (by decide) (by decide) (by decide) (by decide) (by decide)
      (by decide)⟩

/-- C1 counterexample: with a subject identifier of length 2 and a
non-empty department list, the Evaluator does not return a boolean — the
rule-5 index `subject[5]` fails (Python `IndexError`), modelled as `none`.
This refutes the claim that no error branch is reachable. -/
theorem satisfied_short_subject_error :
    satisfied [(examShort, slotH2d0)] = none := by decide

/-- C1 (amended): the Evaluator returns a boolean on every assignment —
empty, partial, or complete — provided each exam that lists at least one
department has a subject identifier reaching index 5. -/
theorem satisfied_total_of_subjOk (A : Assignment)
    (hok : ∀ p ∈ A, SubjOk p.1) : (satisfied A).isSome = true :=
  satisfied_isSome hok

/-- C1 witness: the totality theorem applied to a concrete two-exam
assignment with well-formed subjects. -/
theorem satisfied_total_of_subjOk_witness :
    (∀ p ∈ [(examMA, slotH2d0), (examCS, slotH1d0)], SubjOk p.1) ∧
      (satisfied [(examMA, slotH2d0), (examCS, slotH1d0)]).isSome = true :=
  ⟨by decide,
    satisfied_total_of_subjOk [(examMA, slotH2d0), (examCS, slotH1d0)]
      (by decide)⟩

/-- C4: the Evaluator is monotonic under restriction: if it accepts an
assignment, it accepts every sub-assignment (any subset of the bindings,
in any order). -/
theorem satisfied_mono_subperm (A B : Assignment)
    (hsat : satisfied A = some true) (hBA : B.Subperm A) :
    satisfied B = some true :=
  (satisfied_eq_true_iff B).mpr
    (Consistent_subperm hBA ((satisfied_eq_true_iff A).mp hsat))

/-- C4 witness: dropping one binding from a concrete accepted two-exam
assignment leaves an accepted assignment. -/
theorem satisfied_mono_subperm_witness :
    satisfied [(examCS, slotH1d0), (examMA, slotH2d0)] = some true ∧
      [(examMA, slotH2d0)].Subperm [(examCS, slotH1d0), (examMA, slotH2d0)] ∧
      satisfied [(examMA, slotH2d0)] = some true :=
  ⟨by decide, by decide,
    satisfied_mono_subperm [(examCS, slotH1d0), (examMA, slotH2d0)]
      [(examMA, slotH2d0)] (by decide) (by decide)⟩

/-- C5 counterexample: permuting the entries of one concrete assignment
changes the Evaluator's outcome.  With the over-capacity exam first the
capacity rule fails and `false` is returned; with the short-subject exam
first, rule 5's `subject[5]` fails before the capacity violation is
reached, so the call errors instead of returning a boolean. -/
theorem satisfied_perm_changes_result :
    ([(examBig, slotH1d0), (examShort, slotH2d1)] : Assignment).Perm
        [(examShort, slotH2d1), (examBig, slotH1d0)] ∧
      satisfied [(examBig, slotH1d0), (examShort, slotH2d1)] = some false ∧
      satisfied [(examShort, slotH2d1), (examBig, slotH1d0)] = none := by
  refine ⟨?_, ?_, ?_⟩ <;> decide

/-- C5 (amended): on every assignment whose exams can all derive their year
character (each exam with a non-empty department list has a subject
reaching index 5), the Evaluator's boolean is independent of the iteration
order of the entries. -/
theorem satisfied_order_independent (A B : Assignment)
    (hok : ∀ p ∈ A, SubjOk p.1) (h : A.Perm B) :
    satisfied A = satisfied B :=
  satisfied_perm_eq hok h

/-- C5 witness: swapping the two entries of a concrete well-formed accepted
assignment leaves the result unchanged. -/
theorem satisfied_order_independent_witness :
    (∀ p ∈ [(examCS, slotH1d0), (examMA, slotH2d0)], SubjOk p.1) ∧
      ([(examCS, slotH1d0), (examMA, slotH2d0)] : Assignment).Perm
        [(examMA, slotH2d0), (examCS, slotH1d0)] ∧
      satisfied [(examCS, slotH1d0), (examMA, slotH2d0)] =
        satisfied [(examMA, slotH2d0), (examCS, slotH1d0)] :=
  ⟨by decide, by decide,
    satisfied_order_independent [(examCS, slotH1d0), (examMA, slotH2d0)]
      [(examMA, slotH2d0), (examCS, slotH1d0)] (by decide) (by decide)⟩

/-- C3: the Slot Generator always succeeds and produces exactly
`durationDays × 4 × (2^|halls| − 1)` candidate slots, for every
non-negative duration and every hall inventory; a 0-hall inventory gives
`2^0 − 1 = 0` slots. -/
theorem genScheduleSlots_count (duration_days : Nat) (halls : List Hall) :
    (genScheduleSlots duration_days halls).length =
      duration_days * 4 * (2 ^ halls.length - 1) :=
  length_genScheduleSlots duration_days halls

/-- C9: every slot the generator produces has a non-empty hall set and a
time-of-day equal to one of the four fixed start times. -/
theorem genScheduleSlots_invariant (duration_days : Nat) (halls : List Hall)
    (slot : ScheduleSlot) (hs : slot ∈ genScheduleSlots duration_days halls) :
    slot.halls ≠ ∅ ∧ slot.start.tod ∈ VALID_START_TIMES := by
  obtain ⟨d, -, t, ht, hl, hhl, rfl⟩ := mem_genScheduleSlots hs
  refine ⟨?_, ht⟩
  intro hempty
  exact ne_nil_of_mem_powerset hhl ((List.toFinset_eq_empty_iff hl).mp hempty)

/-- C9 witness: one concrete generated slot, shown non-degenerate. -/
theorem genScheduleSlots_invariant_witness :
    slotH1d0 ∈ genScheduleSlots 1 [hallH1] ∧
      (slotH1d0.halls ≠ ∅ ∧ slotH1d0.start.tod ∈ VALID_START_TIMES) :=
  ⟨by decide, genScheduleSlots_invariant 1 [hallH1] slotH1d0 (by decide)⟩

end Exams
